import Mathlib

/-!
Verification of the LoRaWAN subnet addressing codec (lorawan/src/subnet.rs).

The codec converts between 32-bit LoRaWAN device addresses (DevAddr), 24-bit
network identifiers (NetId), 8-bit network classes (NetClass) and flat
operator-internal subnet addresses (SubnetAddr).  All four types are unsigned
machine integers in the source; they are modelled as Nat, with an explicit
reduction modulo 2 ^ 32 (or a 0xFFFFFF mask) exactly where the source performs
wrapping 32-bit arithmetic or masks to 24 bits.  Lists of NetIds are plain
Lean lists of Nat.
-/

set_option maxRecDepth 100000

/-- The retired sentinel NetId, const RETIRED_NETID in the source. -/
def RETIRED_NETID : Nat := 0x200010

/-- The ADDR_LEN table of NetClass::addr_len, indexed by class. -/
def ADDR_LEN : List Nat := [25, 24, 20, 17, 15, 13, 10, 7]

/-- The ID_LEN table of NetClass::id_len, indexed by class. -/
def ID_LEN : List Nat := [6, 6, 9, 11, 12, 13, 15, 17]

/-- NetClass::addr_len: table lookup with default 0 for an out-of-range class. -/
def addr_len (c : Nat) : Nat := ADDR_LEN.getD c 0

/-- NetClass::id_len: table lookup with default 0 for an out-of-range class. -/
def id_len (c : Nat) : Nat := ID_LEN.getD c 0

/-- NetClass::var_net_class: the unary class marker, shifted over the id field. -/
def var_net_class (c : Nat) : Nat :=
  let idlen := id_len c
  match c with
  | 0 => 0
  | 1 => 0b10 <<< idlen
  | 2 => 0b110 <<< idlen
  | 3 => 0b1110 <<< idlen
  | 4 => 0b11110 <<< idlen
  | 5 => 0b111110 <<< idlen
  | 6 => 0b1111110 <<< idlen
  | 7 => 0b11111110 <<< idlen
  | _ => 0

/-- NetClass::from(&NetId): the top three bits of the 24-bit NetId, cast to u8. -/
def netid_class (n : Nat) : Nat := (n >>> 21) % 256

/-- The netid_shift_prefix recursion inside DevAddr::net_class: scan bit
positions of the top byte from the given index downwards. -/
def netid_shift_pre (p : Nat) : Nat → Nat
  | 0 => if p &&& 1 = 0 then 7 else 0
  | i + 1 => if p &&& (1 <<< (i + 1)) = 0 then 7 - (i + 1) else netid_shift_pre p i

/-- DevAddr::net_class: scan the most significant byte from bit 7 down. -/
def net_class (d : Nat) : Nat := netid_shift_pre ((d >>> 24) % 256) 7

/-- The From u32 instance of NetId: keep only the low 24 bits. -/
def netid_from_u32 (v : Nat) : Nat := v &&& 0xFFFFFF

/-- The get_netid helper inside the From DevAddr instance of NetId:
left shift by one less than the given length (32-bit wrapping), then
logical right shift leaving the identifier bits. -/
def get_netid (d plen bits : Nat) : Nat := ((d <<< (plen - 1)) % 2 ^ 32) >>> (31 - bits)

/-- The From DevAddr instance of NetId: extract the identifier field and
recombine it with the class in bits 21 to 23. -/
def netid_of (d : Nat) : Nat :=
  netid_from_u32 (get_netid d (net_class d + 1) (id_len (net_class d)) ||| (net_class d <<< 21))

/-- DevAddr::nwk_addr: mask the DevAddr down to the local-address bits
selected by the class of its own NetId. -/
def nwk_addr (d : Nat) : Nat :=
  d &&& ((1 <<< addr_len (netid_class (netid_of d))) - 1)

/-- NetId::size: the span size, two to the addr_len of the NetId's class. -/
def size (n : Nat) : Nat := 1 <<< addr_len (netid_class n)

/-- NetId::is_local: the retired sentinel is always local, otherwise
membership in the list decides. -/
def netid_is_local (n : Nat) (L : List Nat) : Bool :=
  if n = RETIRED_NETID then true else decide (n ∈ L)

/-- DevAddr::is_local: delegate to the NetId parsed out of the DevAddr. -/
def is_local (d : Nat) (L : List Nat) : Bool := netid_is_local (netid_of d) L

/-- The accumulation loop of NetId::addr_range: walk the list, adding span
sizes with wrapping 32-bit addition, stopping at the first matching entry. -/
def addr_range_loop (n : Nat) : List Nat → Nat → Nat → Nat × Nat
  | [], lower, upper => (lower, upper)
  | x :: xs, lower, upper =>
    if x = n then (lower, (upper + size x) % 2 ^ 32)
    else addr_range_loop n xs ((lower + size x) % 2 ^ 32) ((lower + size x) % 2 ^ 32)

/-- NetId::addr_range: none when the NetId is not a member of the list,
otherwise the accumulated (lower, upper) pair. -/
def addr_range (n : Nat) (L : List Nat) : Option (Nat × Nat) :=
  if n ∈ L then some (addr_range_loop n L 0 0) else none

/-- NetId::to_devaddr: rebuild the class marker, or it with the whole NetId,
shift over the local-address field (32-bit wrapping) and or in the nwkaddr. -/
def to_devaddr (n a : Nat) : Nat :=
  (((var_net_class (netid_class n) ||| n) <<< addr_len (netid_class n)) % 2 ^ 32) ||| a

/-- SubnetAddr::within_range: half-open interval test against addr_range. -/
def within_range (s m : Nat) (L : List Nat) : Bool :=
  match addr_range m L with
  | none => false
  | some r => decide (r.1 ≤ s) && decide (s < r.2)

/-- NetId::from_subnet_addr: first list entry whose range contains the subnet. -/
def from_subnet_addr (s : Nat) (L : List Nat) : Option Nat :=
  L.find? fun m => within_range s m L

/-- SubnetAddr::from_devaddr: lower bound of the parsed NetId's range plus the
DevAddr's local address, with wrapping 32-bit addition. -/
def from_devaddr (d : Nat) (L : List Nat) : Option Nat :=
  (addr_range (netid_of d) L).map fun r => (r.1 + nwk_addr d) % 2 ^ 32

/-- DevAddr::from_subnet: find the owning NetId, then re-encode the offset
into the range (wrapping 32-bit subtraction) as a DevAddr. -/
def from_subnet (s : Nat) (L : List Nat) : Option Nat :=
  (from_subnet_addr s L).bind fun n =>
    (addr_range n L).map fun r => to_devaddr n ((s + 2 ^ 32 - r.1) % 2 ^ 32)

/-- Modelled from the spec: the total span of a NetId list, the sum of the
span sizes of its entries in list order (as an unbounded natural number). -/
def span (L : List Nat) : Nat := (L.map size).sum

/-- Proof-side helper: the sum of the span sizes of the entries strictly
before the first occurrence of n. -/
def sumBefore (n : Nat) : List Nat → Nat
  | [] => 0
  | x :: xs => if x = n then 0 else size x + sumBefore n xs

/-- Modelled from the spec: the count of consecutive set bits of a byte,
starting at its most significant bit (bit 7). -/
def lead_ones_aux (b : Nat) : Nat → Nat
  | 0 => if b.testBit 0 then 1 else 0
  | i + 1 => if b.testBit (i + 1) then 1 + lead_ones_aux b i else 0

/-- Modelled from the spec: leading-ones count of a byte, scanning from bit 7. -/
def lead_ones8 (b : Nat) : Nat := lead_ones_aux b 7

/-- Modelled from the spec: the unary class marker, zero for class 0 and k set
bits followed by a terminating zero bit for class k. -/
def spec_pat (k : Nat) : Nat := if k = 0 then 0 else (2 ^ k - 1) * 2

/-!
Bit-level helper lemmas used throughout the development.
-/

/-- Splitting a sum whose left part is a multiple of a power of two:
low bits come from the small summand, high bits from the multiplier. -/
theorem testBit_two_pow_mul_add_small (m y k i : Nat) (hy : y < 2 ^ k) :
    (2 ^ k * m + y).testBit i = if i < k then y.testBit i else m.testBit (i - k) := by
  rcases Nat.lt_or_ge i k with h | h
  · rw [if_pos h, Nat.testBit_to_div_mod, Nat.testBit_to_div_mod]
    have hk : 2 ^ k = 2 ^ i * 2 ^ (k - i) := by rw [← pow_add]; congr 1; omega
    have h2 : 2 ^ (k - i) = 2 * 2 ^ (k - i - 1) := by
      rw [← pow_succ']; congr 1; omega
    rw [hk, Nat.mul_assoc, Nat.mul_add_div (Nat.pos_pow_of_pos i (by norm_num)),
      h2, Nat.mul_assoc, Nat.mul_add_mod]
  · rw [if_neg (by omega), Nat.testBit_to_div_mod, Nat.testBit_to_div_mod]
    have hk : (2 : Nat) ^ i = 2 ^ k * 2 ^ (i - k) := by rw [← pow_add]; congr 1; omega
    rw [hk, ← Nat.div_div_eq_div_mul, Nat.mul_add_div (Nat.pos_pow_of_pos k (by norm_num)),
      Nat.div_eq_of_lt hy, Nat.add_zero]

/-- Or of a multiple of a power of two with a smaller number is their sum. -/
theorem two_pow_mul_lor_small (m y k : Nat) (hy : y < 2 ^ k) :
    (2 ^ k * m) ||| y = 2 ^ k * m + y := by
  apply Nat.eq_of_testBit_eq
  intro i
  rw [Nat.testBit_or, testBit_two_pow_mul_add_small m y k i hy]
  have hm : 2 ^ k * m = m <<< k := by rw [Nat.shiftLeft_eq, Nat.mul_comm]
  rcases Nat.lt_or_ge i k with h | h
  · rw [if_pos h, hm, Nat.testBit_shiftLeft]
    simp [Nat.not_le_of_lt h]
  · rw [if_neg (by omega), hm, Nat.testBit_shiftLeft,
      Nat.testBit_lt_two_pow (Nat.lt_of_lt_of_le hy (Nat.pow_le_pow_right (by norm_num) h))]
    simp [h]

/-- Left shift distributes over bitwise or. -/
theorem shiftLeft_lor_distrib (x y k : Nat) : (x ||| y) <<< k = (x <<< k) ||| (y <<< k) := by
  apply Nat.eq_of_testBit_eq
  intro i
  simp [Nat.testBit_shiftLeft, Nat.testBit_or, Bool.and_or_distrib_left]

/-- Reduction modulo a power of two distributes over bitwise or. -/
theorem lor_mod_two_pow (x y k : Nat) : (x ||| y) % 2 ^ k = x % 2 ^ k ||| y % 2 ^ k := by
  apply Nat.eq_of_testBit_eq
  intro i
  simp [Nat.testBit_mod_two_pow, Nat.testBit_or, Bool.and_or_distrib_left]

/-- The class field of a canonically composed NetId. -/
theorem netid_class_mul_add (c i : Nat) (hc : c < 8) (hi : i < 2 ^ 21) :
    netid_class (c * 2 ^ 21 + i) = c := by
  unfold netid_class
  rw [Nat.shiftRight_eq_div_pow, Nat.mul_comm c, Nat.mul_add_div (by norm_num),
    Nat.div_eq_of_lt hi]
  omega

/-- A NetId below the class field has class zero. -/
theorem netid_class_small (n : Nat) (h : n < 2 ^ 21) : netid_class n = 0 := by
  unfold netid_class
  rw [Nat.shiftRight_eq_div_pow, Nat.div_eq_of_lt h]

/-- Canonical encoding for classes 1 to 7: to_devaddr on a NetId with class
field c and identifier field i produces the prefix, identifier and local
address fields of the 32-bit wire layout.  The per-class table values and the
combined marker value Q are supplied as hypotheses discharged by computation. -/
theorem to_devaddr_canon (c idl al Q q i a : Nat)
    (hc : c < 8)
    (hal : addr_len c = al)
    (hidl_le : idl ≤ 17)
    (hsum : c + 1 + idl + al = 32)
    (hvnc : var_net_class c ||| 2 ^ 21 * c = 2 ^ idl * Q)
    (hQ : Q % 2 ^ (c + 1) = q)
    (hi : i < 2 ^ idl) (ha : a < 2 ^ al) :
    to_devaddr (c * 2 ^ 21 + i) a = q * 2 ^ (31 - c) + i * 2 ^ al + a := by
  have hi21 : i < 2 ^ 21 :=
    lt_of_lt_of_le hi (Nat.pow_le_pow_right (by norm_num) (by omega))
  have hcls : netid_class (c * 2 ^ 21 + i) = c := netid_class_mul_add c i hc hi21
  have hsplit : c * 2 ^ 21 + i = (2 ^ 21 * c) ||| i := by
    rw [two_pow_mul_lor_small _ _ _ hi21, Nat.mul_comm]
  have haddr : var_net_class c ||| (c * 2 ^ 21 + i) = 2 ^ idl * Q + i := by
    rw [hsplit, ← Nat.or_assoc, hvnc, two_pow_mul_lor_small _ _ _ hi]
  have e1 : (2 : Nat) ^ (c + 1) * 2 ^ (idl + al) = 2 ^ 32 := by
    rw [← pow_add]; congr 1; omega
  have e2 : (2 : Nat) ^ idl * 2 ^ al = 2 ^ (idl + al) := by rw [← pow_add]
  have hq_lt : q < 2 ^ (c + 1) := hQ ▸ Nat.mod_lt _ (Nat.two_pow_pos _)
  have f1 : q * 2 ^ (idl + al) + 2 ^ (idl + al) ≤ 2 ^ 32 := by
    calc q * 2 ^ (idl + al) + 2 ^ (idl + al) = (q + 1) * 2 ^ (idl + al) := by ring
      _ ≤ 2 ^ (c + 1) * 2 ^ (idl + al) := Nat.mul_le_mul_right _ (by omega)
      _ = 2 ^ 32 := e1
  have f2 : i * 2 ^ al + 2 ^ al ≤ 2 ^ (idl + al) := by
    calc i * 2 ^ al + 2 ^ al = (i + 1) * 2 ^ al := by ring
      _ ≤ 2 ^ idl * 2 ^ al := Nat.mul_le_mul_right _ (by omega)
      _ = 2 ^ (idl + al) := e2
  have f3 : (0 : Nat) < 2 ^ al := Nat.two_pow_pos _
  have hshift : ((2 ^ idl * Q + i) <<< al) % 2 ^ 32 = q * 2 ^ (idl + al) + i * 2 ^ al := by
    obtain ⟨t, ht⟩ : ∃ t, Q = 2 ^ (c + 1) * t + q :=
      ⟨Q / 2 ^ (c + 1), by rw [← hQ, Nat.div_add_mod]⟩
    have expand : (2 ^ idl * Q + i) <<< al = 2 ^ 32 * t + (q * 2 ^ (idl + al) + i * 2 ^ al) := by
      rw [Nat.shiftLeft_eq, ht]
      calc (2 ^ idl * (2 ^ (c + 1) * t + q) + i) * 2 ^ al
          = (2 ^ (c + 1) * (2 ^ idl * 2 ^ al)) * t + (q * (2 ^ idl * 2 ^ al) + i * 2 ^ al) := by
            ring
        _ = 2 ^ 32 * t + (q * 2 ^ (idl + al) + i * 2 ^ al) := by rw [e2, e1]
    rw [expand, Nat.mul_add_mod, Nat.mod_eq_of_lt (by omega)]
  unfold to_devaddr
  rw [hcls, hal, haddr, hshift]
  have hfin : q * 2 ^ (idl + al) + i * 2 ^ al = 2 ^ al * (q * 2 ^ idl + i) := by
    rw [← e2]; ring
  rw [hfin, two_pow_mul_lor_small _ _ _ ha]
  have e3 : (2 : Nat) ^ (31 - c) = 2 ^ (idl + al) := by congr 1; omega
  rw [e3, ← e2]; ring

/-- Canonical decoding for classes 1 to 7: parsing the NetId and the local
address back out of a canonically composed DevAddr recovers the class,
identifier and local-address fields. -/
theorem decode_canon (c idl al q i a : Nat)
    (hc1 : 1 ≤ c) (hc : c < 8)
    (hidl : id_len c = idl) (hal : addr_len c = al)
    (hidl_le : idl ≤ 17)
    (hsum : c + 1 + idl + al = 32)
    (hq : q = 2 ^ (c + 1) - 2)
    (hbyte : ∀ b, b < 256 → b / 2 ^ (7 - c) = q → netid_shift_pre b 7 = c)
    (hi : i < 2 ^ idl) (ha : a < 2 ^ al) :
    netid_of (q * 2 ^ (31 - c) + i * 2 ^ al + a) = c * 2 ^ 21 + i ∧
      nwk_addr (q * 2 ^ (31 - c) + i * 2 ^ al + a) = a := by
  have hi21 : i < 2 ^ 21 :=
    lt_of_lt_of_le hi (Nat.pow_le_pow_right (by norm_num) (by omega))
  have e2 : (2 : Nat) ^ idl * 2 ^ al = 2 ^ (idl + al) := by rw [← pow_add]
  have e3 : (2 : Nat) ^ (31 - c) = 2 ^ idl * 2 ^ al := by rw [e2]; congr 1; omega
  rw [e3]
  set D := q * (2 ^ idl * 2 ^ al) + i * 2 ^ al + a with hD
  have f2 : i * 2 ^ al + 2 ^ al ≤ 2 ^ idl * 2 ^ al := by
    calc i * 2 ^ al + 2 ^ al = (i + 1) * 2 ^ al := by ring
      _ ≤ 2 ^ idl * 2 ^ al := Nat.mul_le_mul_right _ (by omega)
  have f3 : (0 : Nat) < 2 ^ al := Nat.two_pow_pos _
  have f4 : (0 : Nat) < 2 ^ idl * 2 ^ al := by positivity
  have hrest : i * 2 ^ al + a < 2 ^ idl * 2 ^ al := by omega
  obtain ⟨e, he⟩ : ∃ e, (2 : Nat) ^ c = e + 1 :=
    ⟨2 ^ c - 1, by have := Nat.two_pow_pos c; omega⟩
  have hcc : (2 : Nat) ^ (c + 1) = 2 * 2 ^ c := by rw [pow_succ']
  have hq2 : q = 2 * e := by rw [hq, hcc, he]; omega
  have e1 : (2 : Nat) ^ (c + 1) * (2 ^ idl * 2 ^ al) = 2 ^ 32 := by
    rw [e2, ← pow_add]; congr 1; omega
  have hD32 : D < 2 ^ 32 := by
    have hqq : (q + 2) * (2 ^ idl * 2 ^ al) = 2 ^ 32 := by
      rw [← e1, hq, hcc]
      congr 1
      have := Nat.two_pow_pos c
      omega
    have hx : q * (2 ^ idl * 2 ^ al) + 2 * (2 ^ idl * 2 ^ al) = 2 ^ 32 := by
      rw [← hqq]; ring
    omega
  have hdivD : D / (2 ^ idl * 2 ^ al) = q := by
    rw [hD, Nat.add_assoc, Nat.mul_comm q, Nat.mul_add_div f4, Nat.div_eq_of_lt hrest,
      Nat.add_zero]
  have hb256 : D / 2 ^ 24 < 256 := by
    rw [Nat.div_lt_iff_lt_mul (by norm_num)]
    calc D < 2 ^ 32 := hD32
      _ = 256 * 2 ^ 24 := by norm_num
  have hbD : (D >>> 24) % 256 = D / 2 ^ 24 := by
    rw [Nat.shiftRight_eq_div_pow, Nat.mod_eq_of_lt hb256]
  have hbq : D / 2 ^ 24 / 2 ^ (7 - c) = q := by
    rw [Nat.div_div_eq_div_mul, ← pow_add]
    have h24 : 24 + (7 - c) = 31 - c := by omega
    rw [h24, show (2 : Nat) ^ (31 - c) = 2 ^ idl * 2 ^ al from e3, hdivD]
  have hclassD : net_class D = c := by
    unfold net_class
    rw [hbD]
    exact hbyte _ hb256 hbq
  have hid : get_netid D (c + 1) idl = i := by
    unfold get_netid
    have hc1' : c + 1 - 1 = c := by omega
    rw [hc1']
    have h31 : (2 : Nat) ^ idl * 2 ^ al * 2 ^ c = 2 ^ 31 := by
      rw [← pow_add, ← pow_add]; congr 1; omega
    have h232 : (2 : Nat) * 2 ^ 31 = 2 ^ 32 := by norm_num
    have hmul : D <<< c = 2 ^ 32 * e + (i * 2 ^ al + a) * 2 ^ c := by
      rw [Nat.shiftLeft_eq, hD]
      calc (q * (2 ^ idl * 2 ^ al) + i * 2 ^ al + a) * 2 ^ c
          = q * (2 ^ idl * 2 ^ al * 2 ^ c) + (i * 2 ^ al + a) * 2 ^ c := by ring
        _ = 2 * e * 2 ^ 31 + (i * 2 ^ al + a) * 2 ^ c := by rw [h31, hq2]
        _ = 2 ^ 32 * e + (i * 2 ^ al + a) * 2 ^ c := by rw [← h232]; ring
    have hsmall : (i * 2 ^ al + a) * 2 ^ c < 2 ^ 32 := by
      calc (i * 2 ^ al + a) * 2 ^ c < 2 ^ idl * 2 ^ al * 2 ^ c :=
            (Nat.mul_lt_mul_right (Nat.two_pow_pos _)).mpr hrest
        _ = 2 ^ 31 := h31
        _ < 2 ^ 32 := by norm_num
    rw [hmul, Nat.mul_add_mod, Nat.mod_eq_of_lt hsmall, Nat.shiftRight_eq_div_pow]
    have h31i : (2 : Nat) ^ (31 - idl) = 2 ^ al * 2 ^ c := by
      rw [← pow_add]; congr 1; omega
    rw [h31i, Nat.mul_div_mul_right _ _ (Nat.two_pow_pos c), Nat.mul_comm i,
      Nat.mul_add_div f3, Nat.div_eq_of_lt ha, Nat.add_zero]
  have hlt24 : 2 ^ 21 * c + i < 2 ^ 24 := by
    have : c * 2 ^ 21 + 2 ^ 21 ≤ 2 ^ 24 := by
      calc c * 2 ^ 21 + 2 ^ 21 = (c + 1) * 2 ^ 21 := by ring
        _ ≤ 8 * 2 ^ 21 := Nat.mul_le_mul_right _ (by omega)
        _ = 2 ^ 24 := by norm_num
    omega
  have hnid : netid_of D = c * 2 ^ 21 + i := by
    unfold netid_of
    rw [hclassD, hidl, hid]
    have hsh : (c <<< 21) = 2 ^ 21 * c := by rw [Nat.shiftLeft_eq]; ring
    rw [hsh, Nat.or_comm, two_pow_mul_lor_small _ _ _ hi21]
    unfold netid_from_u32
    have hmask : (0xFFFFFF : Nat) = 2 ^ 24 - 1 := by norm_num
    rw [hmask, Nat.and_pow_two_sub_one_eq_mod, Nat.mod_eq_of_lt hlt24]
    ring
  refine ⟨hnid, ?_⟩
  unfold nwk_addr
  rw [hnid, netid_class_mul_add c i hc hi21, hal, Nat.one_shiftLeft,
    Nat.and_pow_two_sub_one_eq_mod]
  rw [hD]
  have hsplit : q * (2 ^ idl * 2 ^ al) + i * 2 ^ al + a = 2 ^ al * (q * 2 ^ idl + i) + a := by
    ring
  rw [hsplit, Nat.mul_add_mod, Nat.mod_eq_of_lt ha]

/-- Class-0 encoding: with an empty class marker the NetId is shifted over
the 25 local-address bits directly (any identifier below 2 ^ 7 fits without
32-bit overflow). -/
theorem to_devaddr_c0 (i a : Nat) (hi : i < 2 ^ 7) (ha : a < 2 ^ 25) :
    to_devaddr i a = i * 2 ^ 25 + a := by
  have hi21 : i < 2 ^ 21 := lt_of_lt_of_le hi (by norm_num)
  have hcls : netid_class i = 0 := netid_class_small i hi21
  have hlt32 : i * 2 ^ 25 < 2 ^ 32 := by
    calc i * 2 ^ 25 < 2 ^ 7 * 2 ^ 25 := (Nat.mul_lt_mul_right (Nat.two_pow_pos _)).mpr hi
      _ = 2 ^ 32 := by norm_num
  unfold to_devaddr
  rw [hcls, show var_net_class 0 = 0 from rfl, show addr_len 0 = 25 from rfl,
    Nat.zero_or, Nat.shiftLeft_eq, Nat.mod_eq_of_lt hlt32, Nat.mul_comm i,
    two_pow_mul_lor_small _ _ _ ha]

/-- Class-0 decoding: for a DevAddr whose scanned class is 0 the parsed NetId
is the top 7 bits and the local address the low 25 bits. -/
theorem netid_of_c0 (d : Nat) (hd : d < 2 ^ 32) (hclass : net_class d = 0) :
    netid_of d = d / 2 ^ 25 ∧ nwk_addr d = d % 2 ^ 25 := by
  have hi7 : d / 2 ^ 25 < 2 ^ 7 := by
    rw [Nat.div_lt_iff_lt_mul (Nat.two_pow_pos _)]
    calc d < 2 ^ 32 := hd
      _ = 2 ^ 7 * 2 ^ 25 := by norm_num
  have hi24 : d / 2 ^ 25 < 2 ^ 24 := lt_of_lt_of_le hi7 (by norm_num)
  have hg : get_netid d (0 + 1) (id_len 0) = d / 2 ^ 25 := by
    unfold get_netid
    rw [show id_len 0 = 6 from rfl, show 0 + 1 - 1 = 0 from rfl, Nat.shiftLeft_zero,
      Nat.mod_eq_of_lt hd, Nat.shiftRight_eq_div_pow]
  have hnid : netid_of d = d / 2 ^ 25 := by
    unfold netid_of
    rw [hclass, hg, show (0 : Nat) <<< 21 = 0 from rfl, Nat.or_zero]
    unfold netid_from_u32
    rw [show (0xFFFFFF : Nat) = 2 ^ 24 - 1 by norm_num, Nat.and_pow_two_sub_one_eq_mod,
      Nat.mod_eq_of_lt hi24]
  refine ⟨hnid, ?_⟩
  unfold nwk_addr
  rw [hnid, netid_class_small _ (lt_of_lt_of_le hi7 (by norm_num)),
    show addr_len 0 = 25 from rfl, Nat.one_shiftLeft, Nat.and_pow_two_sub_one_eq_mod]

/-- Class-0 decoding of a canonically composed class-0 DevAddr. -/
theorem decode_c0 (i a : Nat) (hi : i < 2 ^ 6) (ha : a < 2 ^ 25) :
    netid_of (i * 2 ^ 25 + a) = i ∧ nwk_addr (i * 2 ^ 25 + a) = a := by
  have hlt31 : i * 2 ^ 25 + a < 2 ^ 31 := by
    have h1 : i * 2 ^ 25 + 2 ^ 25 ≤ 2 ^ 31 := by
      calc i * 2 ^ 25 + 2 ^ 25 = (i + 1) * 2 ^ 25 := by ring
        _ ≤ 2 ^ 6 * 2 ^ 25 := Nat.mul_le_mul_right _ (by omega)
        _ = 2 ^ 31 := by norm_num
    omega
  have hd32 : i * 2 ^ 25 + a < 2 ^ 32 := lt_trans hlt31 (by norm_num)
  have hbyte0 : ∀ b, b < 128 → netid_shift_pre b 7 = 0 := by decide
  have hclass : net_class (i * 2 ^ 25 + a) = 0 := by
    unfold net_class
    refine hbyte0 _ ?_
    have h1 : (i * 2 ^ 25 + a) >>> 24 = (i * 2 ^ 25 + a) / 2 ^ 24 := Nat.shiftRight_eq_div_pow _ _
    have h2 : (i * 2 ^ 25 + a) / 2 ^ 24 < 128 := by
      rw [Nat.div_lt_iff_lt_mul (Nat.two_pow_pos _)]
      calc i * 2 ^ 25 + a < 2 ^ 31 := hlt31
        _ = 128 * 2 ^ 24 := by norm_num
    rw [h1, Nat.mod_eq_of_lt (lt_trans h2 (by norm_num))]
    exact h2
  obtain ⟨h1, h2⟩ := netid_of_c0 _ hd32 hclass
  have hdiv : (i * 2 ^ 25 + a) / 2 ^ 25 = i := by
    rw [Nat.mul_comm, Nat.mul_add_div (Nat.two_pow_pos _), Nat.div_eq_of_lt ha, Nat.add_zero]
  have hmod : (i * 2 ^ 25 + a) % 2 ^ 25 = a := by
    rw [Nat.mul_comm, Nat.mul_add_mod, Nat.mod_eq_of_lt ha]
  exact ⟨by rw [h1, hdiv], by rw [h2, hmod]⟩

/-- Per-class round trip through a DevAddr: for a DevAddr of scanned class c
(1 to 7), re-encoding the parsed NetId and local address gives the DevAddr
back.  The per-class table values are supplied as hypotheses. -/
theorem encode_decode_pos (c idl al q Q d : Nat)
    (hc1 : 1 ≤ c) (hc : c < 8)
    (hidl : id_len c = idl) (hal : addr_len c = al)
    (hidl_le : idl ≤ 17)
    (hsum : c + 1 + idl + al = 32)
    (hq : q = 2 ^ (c + 1) - 2)
    (hvnc : var_net_class c ||| 2 ^ 21 * c = 2 ^ idl * Q)
    (hQ : Q % 2 ^ (c + 1) = q)
    (hbyte_fwd : ∀ b, b < 256 → netid_shift_pre b 7 = c → b / 2 ^ (7 - c) = q)
    (hbyte_rev : ∀ b, b < 256 → b / 2 ^ (7 - c) = q → netid_shift_pre b 7 = c)
    (hd : d < 2 ^ 32) (hclass : net_class d = c) :
    to_devaddr (netid_of d) (nwk_addr d) = d := by
  have e2 : (2 : Nat) ^ idl * 2 ^ al = 2 ^ (idl + al) := by rw [← pow_add]
  have e3 : (2 : Nat) ^ (31 - c) = 2 ^ idl * 2 ^ al := by rw [e2]; congr 1; omega
  have hb256 : d / 2 ^ 24 < 256 := by
    rw [Nat.div_lt_iff_lt_mul (by norm_num)]
    calc d < 2 ^ 32 := hd
      _ = 256 * 2 ^ 24 := by norm_num
  have hbeq : (d >>> 24) % 256 = d / 2 ^ 24 := by
    rw [Nat.shiftRight_eq_div_pow, Nat.mod_eq_of_lt hb256]
  have hclass' : netid_shift_pre (d / 2 ^ 24) 7 = c := by
    unfold net_class at hclass
    rwa [hbeq] at hclass
  have hdq : d / (2 ^ idl * 2 ^ al) = q := by
    have h1 : d / 2 ^ 24 / 2 ^ (7 - c) = q := hbyte_fwd _ hb256 hclass'
    rw [Nat.div_div_eq_div_mul, ← pow_add, show 24 + (7 - c) = 31 - c by omega, e3] at h1
    exact h1
  have hK : (0 : Nat) < 2 ^ idl * 2 ^ al := by positivity
  have ha : d % (2 ^ idl * 2 ^ al) % 2 ^ al < 2 ^ al := Nat.mod_lt _ (Nat.two_pow_pos _)
  have hrest_lt : d % (2 ^ idl * 2 ^ al) < 2 ^ idl * 2 ^ al := Nat.mod_lt _ hK
  have hi : d % (2 ^ idl * 2 ^ al) / 2 ^ al < 2 ^ idl := by
    rw [Nat.div_lt_iff_lt_mul (Nat.two_pow_pos _)]
    calc d % (2 ^ idl * 2 ^ al) < 2 ^ idl * 2 ^ al := hrest_lt
      _ = 2 ^ idl * 2 ^ al := rfl
  have hia : d % (2 ^ idl * 2 ^ al) / 2 ^ al * 2 ^ al + d % (2 ^ idl * 2 ^ al) % 2 ^ al
      = d % (2 ^ idl * 2 ^ al) := by
    rw [Nat.mul_comm]
    exact Nat.div_add_mod _ _
  have hdarg : q * (2 ^ idl * 2 ^ al) + d % (2 ^ idl * 2 ^ al) / 2 ^ al * 2 ^ al
      + d % (2 ^ idl * 2 ^ al) % 2 ^ al = d := by
    rw [Nat.add_assoc, hia, Nat.mul_comm q, ← hdq]
    exact Nat.div_add_mod d _
  have hdec := decode_canon c idl al q (d % (2 ^ idl * 2 ^ al) / 2 ^ al)
    (d % (2 ^ idl * 2 ^ al) % 2 ^ al) hc1 hc hidl hal hidl_le hsum hq hbyte_rev hi ha
  rw [e3, hdarg] at hdec
  obtain ⟨hn, hw⟩ := hdec
  rw [hn, hw]
  have henc := to_devaddr_canon c idl al Q q (d % (2 ^ idl * 2 ^ al) / 2 ^ al)
    (d % (2 ^ idl * 2 ^ al) % 2 ^ al) hc hal hidl_le hsum hvnc hQ hi ha
  rw [henc, e3]
  exact hdarg

/-- Round trip through a DevAddr: re-encoding the parsed NetId and local
address of any 32-bit DevAddr yields the DevAddr itself. -/
theorem encode_decode (d : Nat) (hd : d < 2 ^ 32) :
    to_devaddr (netid_of d) (nwk_addr d) = d := by
  have hb256 : (d >>> 24) % 256 < 256 := Nat.mod_lt _ (by norm_num)
  have hlt8 : ∀ b, b < 256 → netid_shift_pre b 7 < 8 := by decide
  obtain ⟨c, hceq⟩ : ∃ c, net_class d = c := ⟨_, rfl⟩
  have hclt : c < 8 := by
    rw [← hceq]
    unfold net_class
    exact hlt8 _ hb256
  interval_cases c
  · obtain ⟨h1, h2⟩ := netid_of_c0 d hd hceq
    have hi7 : d / 2 ^ 25 < 2 ^ 7 := by
      rw [Nat.div_lt_iff_lt_mul (Nat.two_pow_pos _)]
      calc d < 2 ^ 32 := hd
        _ = 2 ^ 7 * 2 ^ 25 := by norm_num
    rw [h1, h2, to_devaddr_c0 _ _ hi7 (Nat.mod_lt _ (Nat.two_pow_pos _)), Nat.mul_comm]
    exact Nat.div_add_mod d (2 ^ 25)
  · exact encode_decode_pos 1 6 24 2 32770 d (by norm_num) (by norm_num) rfl rfl
      (by norm_num) (by norm_num) (by norm_num) (by decide) (by decide)
      (by decide) (by decide) hd hceq
  · exact encode_decode_pos 2 9 20 6 8198 d (by norm_num) (by norm_num) rfl rfl
      (by norm_num) (by norm_num) (by norm_num) (by decide) (by decide)
      (by decide) (by decide) hd hceq
  · exact encode_decode_pos 3 11 17 14 3086 d (by norm_num) (by norm_num) rfl rfl
      (by norm_num) (by norm_num) (by norm_num) (by decide) (by decide)
      (by decide) (by decide) hd hceq
  · exact encode_decode_pos 4 12 15 30 2078 d (by norm_num) (by norm_num) rfl rfl
      (by norm_num) (by norm_num) (by norm_num) (by decide) (by decide)
      (by decide) (by decide) hd hceq
  · exact encode_decode_pos 5 13 13 62 1342 d (by norm_num) (by norm_num) rfl rfl
      (by norm_num) (by norm_num) (by norm_num) (by decide) (by decide)
      (by decide) (by decide) hd hceq
  · exact encode_decode_pos 6 15 10 126 510 d (by norm_num) (by norm_num) rfl rfl
      (by norm_num) (by norm_num) (by norm_num) (by decide) (by decide)
      (by decide) (by decide) hd hceq
  · exact encode_decode_pos 7 17 7 254 254 d (by norm_num) (by norm_num) rfl rfl
      (by norm_num) (by norm_num) (by norm_num) (by decide) (by decide)
      (by decide) (by decide) hd hceq

/-- Round trip through a NetId: encoding a well-formed NetId (identifier
within its class's id_len bits) with a local address within its class's
addr_len bits, then parsing, recovers both inputs. -/
theorem decode_encode (n a : Nat) (hn : n < 2 ^ 24)
    (hval : n % 2 ^ 21 < 2 ^ id_len (n >>> 21))
    (ha : a < 2 ^ addr_len (n >>> 21)) :
    netid_of (to_devaddr n a) = n ∧ nwk_addr (to_devaddr n a) = a := by
  obtain ⟨c, hceq⟩ : ∃ c, n >>> 21 = c := ⟨_, rfl⟩
  have hc8 : c < 8 := by
    rw [← hceq, Nat.shiftRight_eq_div_pow, Nat.div_lt_iff_lt_mul (Nat.two_pow_pos _)]
    calc n < 2 ^ 24 := hn
      _ = 8 * 2 ^ 21 := by norm_num
  have hdecomp : n = c * 2 ^ 21 + n % 2 ^ 21 := by
    rw [← hceq, Nat.shiftRight_eq_div_pow, Nat.mul_comm]
    exact (Nat.div_add_mod n (2 ^ 21)).symm
  rw [hceq] at hval ha
  interval_cases c
  · have hn21 : n < 2 ^ 21 := by
      have := Nat.mod_lt n (y := 2 ^ 21) (by norm_num)
      omega
    have hval' : n < 2 ^ 6 := by
      have : n % 2 ^ 21 = n := Nat.mod_eq_of_lt hn21
      rw [this] at hval
      exact hval
    rw [to_devaddr_c0 n a (lt_of_lt_of_le hval' (by norm_num)) ha]
    exact decode_c0 n a hval' ha
  · have henc := to_devaddr_canon 1 6 24 32770 2 (n % 2 ^ 21) a (by norm_num) rfl
      (by norm_num) (by norm_num) (by decide) (by decide) hval ha
    have hdec := decode_canon 1 6 24 2 (n % 2 ^ 21) a (by norm_num) (by norm_num) rfl rfl
      (by norm_num) (by norm_num) (by norm_num) (by decide) hval ha
    rw [hdecomp, henc]
    exact hdec
  · have henc := to_devaddr_canon 2 9 20 8198 6 (n % 2 ^ 21) a (by norm_num) rfl
      (by norm_num) (by norm_num) (by decide) (by decide) hval ha
    have hdec := decode_canon 2 9 20 6 (n % 2 ^ 21) a (by norm_num) (by norm_num) rfl rfl
      (by norm_num) (by norm_num) (by norm_num) (by decide) hval ha
    rw [hdecomp, henc]
    exact hdec
  · have henc := to_devaddr_canon 3 11 17 3086 14 (n % 2 ^ 21) a (by norm_num) rfl
      (by norm_num) (by norm_num) (by decide) (by decide) hval ha
    have hdec := decode_canon 3 11 17 14 (n % 2 ^ 21) a (by norm_num) (by norm_num) rfl rfl
      (by norm_num) (by norm_num) (by norm_num) (by decide) hval ha
    rw [hdecomp, henc]
    exact hdec
  · have henc := to_devaddr_canon 4 12 15 2078 30 (n % 2 ^ 21) a (by norm_num) rfl
      (by norm_num) (by norm_num) (by decide) (by decide) hval ha
    have hdec := decode_canon 4 12 15 30 (n % 2 ^ 21) a (by norm_num) (by norm_num) rfl rfl
      (by norm_num) (by norm_num) (by norm_num) (by decide) hval ha
    rw [hdecomp, henc]
    exact hdec
  · have henc := to_devaddr_canon 5 13 13 1342 62 (n % 2 ^ 21) a (by norm_num) rfl
      (by norm_num) (by norm_num) (by decide) (by decide) hval ha
    have hdec := decode_canon 5 13 13 62 (n % 2 ^ 21) a (by norm_num) (by norm_num) rfl rfl
      (by norm_num) (by norm_num) (by norm_num) (by decide) hval ha
    rw [hdecomp, henc]
    exact hdec
  · have henc := to_devaddr_canon 6 15 10 510 126 (n % 2 ^ 21) a (by norm_num) rfl
      (by norm_num) (by norm_num) (by decide) (by decide) hval ha
    have hdec := decode_canon 6 15 10 126 (n % 2 ^ 21) a (by norm_num) (by norm_num) rfl rfl
      (by norm_num) (by norm_num) (by norm_num) (by decide) hval ha
    rw [hdecomp, henc]
    exact hdec
  · have henc := to_devaddr_canon 7 17 7 254 254 (n % 2 ^ 21) a (by norm_num) rfl
      (by norm_num) (by norm_num) (by decide) (by decide) hval ha
    have hdec := decode_canon 7 17 7 254 (n % 2 ^ 21) a (by norm_num) (by norm_num) rfl rfl
      (by norm_num) (by norm_num) (by norm_num) (by decide) hval ha
    rw [hdecomp, henc]
    exact hdec

/-- The local address always fits the span size of the parsed NetId. -/
theorem nwk_addr_lt_size (d : Nat) : nwk_addr d < size (netid_of d) := by
  unfold nwk_addr size
  rw [Nat.one_shiftLeft, Nat.and_pow_two_sub_one_eq_mod]
  exact Nat.mod_lt _ (Nat.two_pow_pos _)

/-- Unfolding lemma for the total span of a nonempty list. -/
theorem span_cons (x : Nat) (xs : List Nat) : span (x :: xs) = size x + span xs := by
  simp [span]

/-- The accumulation loop, run below the 32-bit bound, computes exact sums. -/
theorem addr_range_loop_spec (n : Nat) (L : List Nat) : ∀ lo : Nat, n ∈ L →
    lo + sumBefore n L + size n < 2 ^ 32 →
    addr_range_loop n L lo lo = (lo + sumBefore n L, lo + sumBefore n L + size n) := by
  induction L with
  | nil => intro lo hmem _; cases hmem
  | cons x xs ih =>
    intro lo hmem hbound
    by_cases hx : x = n
    · have hsb : sumBefore n (x :: xs) = 0 := by simp [sumBefore, hx]
      rw [hsb] at hbound ⊢
      have hsize : size x = size n := by rw [hx]
      simp only [addr_range_loop, if_pos hx, hsize]
      rw [Nat.mod_eq_of_lt (by omega)]
      simp
    · have hsb : sumBefore n (x :: xs) = size x + sumBefore n xs := by simp [sumBefore, hx]
      rw [hsb] at hbound ⊢
      have hmem' : n ∈ xs := by
        rcases List.mem_cons.mp hmem with h | h
        · exact absurd h.symm hx
        · exact h
      have hlo2 : (lo + size x) % 2 ^ 32 = lo + size x := Nat.mod_eq_of_lt (by omega)
      simp only [addr_range_loop, if_neg hx, hlo2]
      rw [ih (lo + size x) hmem' (by omega)]
      simp only [Prod.mk.injEq]
      omega

/-- Below the 32-bit bound, addr_range returns the exact interval. -/
theorem addr_range_clean (n : Nat) (L : List Nat) (hmem : n ∈ L)
    (hb : sumBefore n L + size n < 2 ^ 32) :
    addr_range n L = some (sumBefore n L, sumBefore n L + size n) := by
  unfold addr_range
  rw [if_pos hmem]
  have h := addr_range_loop_spec n L 0 hmem (by omega)
  rw [h]
  simp

/-- The interval of a member ends no later than the total span. -/
theorem sumBefore_add_size_le_span (n : Nat) (L : List Nat) (hmem : n ∈ L) :
    sumBefore n L + size n ≤ span L := by
  induction L with
  | nil => cases hmem
  | cons x xs ih =>
    rw [span_cons]
    by_cases hx : x = n
    · have hsb : sumBefore n (x :: xs) = 0 := by simp [sumBefore, hx]
      rw [hsb, hx]
      omega
    · have hsb : sumBefore n (x :: xs) = size x + sumBefore n xs := by simp [sumBefore, hx]
      have hmem' : n ∈ xs := by
        rcases List.mem_cons.mp hmem with h | h
        · exact absurd h.symm hx
        · exact h
      have := ih hmem'
      rw [hsb]
      omega

/-- Intervals of distinct member values never overlap. -/
theorem sumBefore_disjoint (m n : Nat) (L : List Nat) (hm : m ∈ L) (hn : n ∈ L)
    (hne : m ≠ n) :
    sumBefore m L + size m ≤ sumBefore n L ∨ sumBefore n L + size n ≤ sumBefore m L := by
  induction L with
  | nil => cases hm
  | cons x xs ih =>
    by_cases hxm : x = m
    · left
      have hxn : ¬x = n := by rw [hxm]; exact hne
      have h1 : sumBefore m (x :: xs) = 0 := by simp [sumBefore, hxm]
      have h2 : sumBefore n (x :: xs) = size x + sumBefore n xs := by simp [sumBefore, hxn]
      rw [h1, h2, hxm]
      omega
    · by_cases hxn : x = n
      · right
        have h1 : sumBefore n (x :: xs) = 0 := by simp [sumBefore, hxn]
        have h2 : sumBefore m (x :: xs) = size x + sumBefore m xs := by simp [sumBefore, hxm]
        rw [h1, h2, hxn]
        omega
      · have hm' : m ∈ xs := by
          rcases List.mem_cons.mp hm with h | h
          · exact absurd h.symm hxm
          · exact h
        have hn' : n ∈ xs := by
          rcases List.mem_cons.mp hn with h | h
          · exact absurd h.symm hxn
          · exact h
        have h1 : sumBefore m (x :: xs) = size x + sumBefore m xs := by simp [sumBefore, hxm]
        have h2 : sumBefore n (x :: xs) = size x + sumBefore n xs := by simp [sumBefore, hxn]
        rw [h1, h2]
        rcases ih hm' hn' with h | h
        · left; omega
        · right; omega

/-- find? returns the unique satisfying value when it is a member. -/
theorem find_eq_some_of_unique {p : Nat → Bool} {L : List Nat} {n : Nat}
    (hmem : n ∈ L) (hp : p n = true) (huniq : ∀ m ∈ L, p m = true → m = n) :
    L.find? p = some n := by
  induction L with
  | nil => cases hmem
  | cons x xs ih =>
    by_cases hpx : p x = true
    · have hx : x = n := huniq x (List.mem_cons_self x xs) hpx
      rw [List.find?_cons_of_pos _ hpx, hx]
    · rw [List.find?_cons_of_neg _ (by simpa using hpx)]
      have hmem' : n ∈ xs := by
        rcases List.mem_cons.mp hmem with h | h
        · rw [h] at hp; exact absurd hp hpx
        · exact h
      exact ih hmem' fun m hm hpm => huniq m (List.mem_cons_of_mem _ hm) hpm

/-- Contiguity: below the total span of a duplicate-free list, some member's
interval contains the position. -/
theorem exists_entry_of_lt_span (L : List Nat) : ∀ s : Nat, L.Nodup → s < span L →
    ∃ n, n ∈ L ∧ sumBefore n L ≤ s ∧ s < sumBefore n L + size n := by
  induction L with
  | nil => intro s _ hs; simp [span] at hs
  | cons x xs ih =>
    intro s hnd hs
    rw [span_cons] at hs
    by_cases hsx : s < size x
    · have hsb : sumBefore x (x :: xs) = 0 := by simp [sumBefore]
      exact ⟨x, List.mem_cons_self x xs, by rw [hsb]; omega, by rw [hsb]; omega⟩
    · obtain ⟨n, hmem, h1, h2⟩ := ih (s - size x) (List.Nodup.of_cons hnd) (by omega)
      have hxn : ¬x = n := by
        intro h
        exact (List.nodup_cons.mp hnd).1 (h ▸ hmem)
      have hsb : sumBefore n (x :: xs) = size x + sumBefore n xs := by simp [sumBefore, hxn]
      exact ⟨n, List.mem_cons_of_mem _ hmem, by rw [hsb]; omega, by rw [hsb]; omega⟩

/-- A within_range test against a member whose interval is exact. -/
theorem within_range_clean (s m : Nat) (L : List Nat) (hmem : m ∈ L)
    (hb : sumBefore m L + size m < 2 ^ 32) :
    within_range s m L
      = (decide (sumBefore m L ≤ s) && decide (s < sumBefore m L + size m)) := by
  unfold within_range
  rw [addr_range_clean m L hmem hb]

/-- A successful within_range test forces list membership. -/
theorem within_range_mem (s m : Nat) (L : List Nat) (h : within_range s m L = true) :
    m ∈ L := by
  by_contra hmem
  unfold within_range addr_range at h
  rw [if_neg hmem] at h
  simp at h

/-- Core of the local round trip: for a DevAddr whose NetId is a member of a
list of total span below 2 ^ 32, from_devaddr yields the exact flat position
and from_subnet maps that position back to the DevAddr. -/
theorem roundtrip_local_core (d : Nat) (L : List Nat) (hd : d < 2 ^ 32)
    (hmem : netid_of d ∈ L) (hspan : span L < 2 ^ 32) :
    from_devaddr d L = some (sumBefore (netid_of d) L + nwk_addr d) ∧
      from_subnet (sumBefore (netid_of d) L + nwk_addr d) L = some d := by
  have hb32 : sumBefore (netid_of d) L + size (netid_of d) < 2 ^ 32 :=
    lt_of_le_of_lt (sumBefore_add_size_le_span _ L hmem) hspan
  have hrange := addr_range_clean (netid_of d) L hmem hb32
  have hnwk : nwk_addr d < size (netid_of d) := nwk_addr_lt_size d
  have hs32 : sumBefore (netid_of d) L + nwk_addr d < 2 ^ 32 := by omega
  constructor
  · unfold from_devaddr
    rw [hrange]
    simp only [Option.map_some']
    rw [Nat.mod_eq_of_lt hs32]
  · have hpn : within_range (sumBefore (netid_of d) L + nwk_addr d) (netid_of d) L = true := by
      rw [within_range_clean _ _ L hmem hb32]
      simp only [Bool.and_eq_true, decide_eq_true_eq]
      omega
    have huniq : ∀ m ∈ L,
        within_range (sumBefore (netid_of d) L + nwk_addr d) m L = true → m = netid_of d := by
      intro m hm hpm
      by_contra hne
      have hbm : sumBefore m L + size m < 2 ^ 32 :=
        lt_of_le_of_lt (sumBefore_add_size_le_span m L hm) hspan
      rw [within_range_clean _ _ L hm hbm] at hpm
      simp only [Bool.and_eq_true, decide_eq_true_eq] at hpm
      rcases sumBefore_disjoint m (netid_of d) L hm hmem hne with h | h <;> omega
    have hfind : from_subnet_addr (sumBefore (netid_of d) L + nwk_addr d) L
        = some (netid_of d) := find_eq_some_of_unique hmem hpn huniq
    unfold from_subnet
    rw [hfind]
    simp only [Option.some_bind]
    rw [hrange]
    simp only [Option.map_some']
    have hsub : (sumBefore (netid_of d) L + nwk_addr d + 2 ^ 32 - sumBefore (netid_of d) L)
        % 2 ^ 32 = nwk_addr d := by
      have h1 : sumBefore (netid_of d) L + nwk_addr d + 2 ^ 32 - sumBefore (netid_of d) L
          = nwk_addr d + 2 ^ 32 := by omega
      rw [h1, Nat.add_mod_right, Nat.mod_eq_of_lt (by omega)]
    rw [hsub, encode_decode d hd]

/-- Core of the subnet round trip: for a position below the total span of a
duplicate-free list of well-formed NetIds (span below 2 ^ 32), from_subnet
succeeds and from_devaddr maps the resulting DevAddr back to the position. -/
theorem roundtrip_subnet_core (s : Nat) (L : List Nat)
    (hval : ∀ m ∈ L, m < 2 ^ 24 ∧ m % 2 ^ 21 < 2 ^ id_len (m >>> 21))
    (hnd : L.Nodup) (hspan : span L < 2 ^ 32) (hs : s < span L) :
    ∃ d, from_subnet s L = some d ∧ from_devaddr d L = some s := by
  obtain ⟨n, hmem, h1, h2⟩ := exists_entry_of_lt_span L s hnd hs
  have hb32 : sumBefore n L + size n < 2 ^ 32 :=
    lt_of_le_of_lt (sumBefore_add_size_le_span n L hmem) hspan
  have hpn : within_range s n L = true := by
    rw [within_range_clean s n L hmem hb32]
    simp only [Bool.and_eq_true, decide_eq_true_eq]
    omega
  have huniq : ∀ m ∈ L, within_range s m L = true → m = n := by
    intro m hm hpm
    by_contra hne
    have hbm : sumBefore m L + size m < 2 ^ 32 :=
      lt_of_le_of_lt (sumBefore_add_size_le_span m L hm) hspan
    rw [within_range_clean s m L hm hbm] at hpm
    simp only [Bool.and_eq_true, decide_eq_true_eq] at hpm
    rcases sumBefore_disjoint m n L hm hmem hne with h | h <;> omega
  have hfind : from_subnet_addr s L = some n := find_eq_some_of_unique hmem hpn huniq
  have hrange := addr_range_clean n L hmem hb32
  have hsub : (s + 2 ^ 32 - sumBefore n L) % 2 ^ 32 = s - sumBefore n L := by
    have hx : s + 2 ^ 32 - sumBefore n L = s - sumBefore n L + 2 ^ 32 := by omega
    rw [hx, Nat.add_mod_right, Nat.mod_eq_of_lt (by omega)]
  have hsize : size n = 2 ^ addr_len (n >>> 21) := by
    unfold size netid_class
    rw [Nat.one_shiftLeft]
    congr 2
    rw [Nat.mod_eq_of_lt]
    have hn24 : n < 2 ^ 24 := (hval n hmem).1
    rw [Nat.shiftRight_eq_div_pow, Nat.div_lt_iff_lt_mul (Nat.two_pow_pos _)]
    calc n < 2 ^ 24 := hn24
      _ ≤ 256 * 2 ^ 21 := by norm_num
  have hdec := decode_encode n (s - sumBefore n L) (hval n hmem).1 (hval n hmem).2
    (by rw [← hsize]; omega)
  refine ⟨to_devaddr n (s - sumBefore n L), ?_, ?_⟩
  · unfold from_subnet
    rw [hfind]
    simp only [Option.some_bind]
    rw [hrange]
    simp only [Option.map_some']
    rw [hsub]
  · unfold from_devaddr
    rw [hdec.1, hrange]
    simp only [Option.map_some']
    rw [hdec.2, Nat.mod_eq_of_lt (by omega)]
    congr 1
    omega

/-- from_subnet misses every position at or beyond the total span. -/
theorem from_subnet_none_of_ge (s : Nat) (L : List Nat) (hspan : span L < 2 ^ 32)
    (hs : span L ≤ s) : from_subnet s L = none := by
  have hall : ∀ m ∈ L, ¬(within_range s m L = true) := by
    intro m hm h
    have hbm : sumBefore m L + size m < 2 ^ 32 :=
      lt_of_le_of_lt (sumBefore_add_size_le_span m L hm) hspan
    rw [within_range_clean s m L hm hbm] at h
    simp only [Bool.and_eq_true, decide_eq_true_eq] at h
    have := sumBefore_add_size_le_span m L hm
    omega
  have hfind : from_subnet_addr s L = none := List.find?_eq_none.mpr hall
  unfold from_subnet
  rw [hfind]
  rfl

/-- from_subnet hits every position below the total span of a duplicate-free
list whose span stays below 2 ^ 32. -/
theorem from_subnet_some_of_lt (s : Nat) (L : List Nat) (hnd : L.Nodup)
    (hspan : span L < 2 ^ 32) (hs : s < span L) : from_subnet s L ≠ none := by
  obtain ⟨n, hmem, h1, h2⟩ := exists_entry_of_lt_span L s hnd hs
  have hb32 : sumBefore n L + size n < 2 ^ 32 :=
    lt_of_le_of_lt (sumBefore_add_size_le_span n L hmem) hspan
  have hpn : within_range s n L = true := by
    rw [within_range_clean s n L hmem hb32]
    simp only [Bool.and_eq_true, decide_eq_true_eq]
    omega
  cases hfound : from_subnet_addr s L with
  | none =>
    unfold from_subnet_addr at hfound
    rw [List.find?_eq_none] at hfound
    exact absurd hpn (hfound n hmem)
  | some m =>
    have hpm : within_range s m L = true := by
      have h := hfound
      unfold from_subnet_addr at h
      exact @List.find?_some _ (fun m => within_range s m L) m L h
    have hmm : m ∈ L := within_range_mem s m L hpm
    unfold from_subnet
    rw [hfound]
    simp only [Option.some_bind]
    unfold addr_range
    rw [if_pos hmm]
    simp

/-- In a duplicate-free list, the accumulated lower bound of the entry at a
position is the sum of the span sizes of the entries before that position. -/
theorem sumBefore_get (L : List Nat) (hnd : L.Nodup) :
    ∀ (i : Nat) (h : i < L.length),
      sumBefore (L.get ⟨i, h⟩) L = ((L.map size).take i).sum := by
  induction L with
  | nil => intro i h; simp at h
  | cons x xs ih =>
    intro i h
    cases i with
    | zero => simp [sumBefore]
    | succ j =>
      have hj : j < xs.length := by simpa using h
      have hget : (x :: xs).get ⟨j + 1, h⟩ = xs.get ⟨j, hj⟩ := rfl
      have hxn : ¬x = xs.get ⟨j, hj⟩ := by
        intro hcontr
        exact (List.nodup_cons.mp hnd).1 (hcontr ▸ xs.get_mem j hj)
      rw [hget]
      have hsb : sumBefore (xs.get ⟨j, hj⟩) (x :: xs)
          = size x + sumBefore (xs.get ⟨j, hj⟩) xs := by
        simp only [sumBefore]
        rw [if_neg hxn]
      rw [hsb, ih (List.Nodup.of_cons hnd) j hj]
      simp

/-- Peeling one entry off a prefix sum of span sizes. -/
theorem sum_take_map_succ (L : List Nat) : ∀ (i : Nat) (hi : i < L.length),
    ((L.map size).take (i + 1)).sum = ((L.map size).take i).sum + size (L.get ⟨i, hi⟩) := by
  induction L with
  | nil => intro i hi; simp at hi
  | cons x xs ih =>
    intro i hi
    cases i with
    | zero => simp
    | succ j =>
      have hj : j < xs.length := by simpa using hi
      have hget : (x :: xs).get ⟨j + 1, hi⟩ = xs.get ⟨j, hj⟩ := rfl
      rw [hget]
      simp only [List.map_cons, List.take_succ_cons, List.sum_cons]
      rw [ih j hj]
      omega

/-!
Claim theorems.
-/

/-- Claim C1, amended: round trip (local).  For every DevAddr d and NetId list L
such that the NetId of d is a member of L, provided the total span of L is
below 2 ^ 32, SubnetAddr::from_devaddr is some value s, and
DevAddr::from_subnet maps s and L back to exactly d.  (Without the span
bound the 32-bit accumulation wraps and the round trip fails.) -/
theorem c1_roundtrip_local (d : Nat) (L : List Nat) (hd : d < 2 ^ 32)
    (hmem : netid_of d ∈ L) (hspan : span L < 2 ^ 32) :
    ∃ s, from_devaddr d L = some s ∧ from_subnet s L = some d :=
  ⟨sumBefore (netid_of d) L + nwk_addr d, (roundtrip_local_core d L hd hmem hspan).1,
    (roundtrip_local_core d L hd hmem hspan).2⟩

/-- Claim C2, amended: round trip (subnet).  For every duplicate-free NetId list L
of well-formed NetIds whose total span is below 2 ^ 32, and every SubnetAddr
s below the total span, DevAddr::from_subnet is some DevAddr d, and
SubnetAddr::from_devaddr maps d and L back to exactly s.  (Duplicate entries,
malformed identifiers, or span overflow each break the round trip.) -/
theorem c2_roundtrip_subnet (s : Nat) (L : List Nat)
    (hval : ∀ m ∈ L, m < 2 ^ 24 ∧ m % 2 ^ 21 < 2 ^ id_len (m >>> 21))
    (hnd : L.Nodup) (hspan : span L < 2 ^ 32) (hs : s < span L) :
    ∃ d, from_subnet s L = some d ∧ from_devaddr d L = some s :=
  roundtrip_subnet_core s L hval hnd hspan hs

/-- Claim C3: SubnetAddr::from_devaddr is absent exactly when the parsed NetId has
no addr_range in the list, and otherwise yields the range's lower bound plus
the DevAddr's local address (32-bit wrapping addition); the concrete vectors
of the spec evaluate accordingly on L = [0xE00001, 0xC00035, 0x60002D]. -/
theorem c3_from_devaddr_spec :
    (∀ d L, addr_range (netid_of d) L = none → from_devaddr d L = none) ∧
    (∀ d L lo up, addr_range (netid_of d) L = some (lo, up) →
      from_devaddr d L = some ((lo + nwk_addr d) % 2 ^ 32)) ∧
    from_devaddr 0xFC00D410 [0xE00001, 0xC00035, 0x60002D] = some 144 ∧
    from_devaddr 0xE05A0008 [0xE00001, 0xC00035, 0x60002D] = some 1160 ∧
    from_subnet 144 [0xE00001, 0xC00035, 0x60002D] = some 0xFC00D410 ∧
    from_subnet 1160 [0xE00001, 0xC00035, 0x60002D] = some 0xE05A0008 := by
  refine ⟨?_, ?_, by decide, by decide, by decide, by decide⟩
  · intro d L h
    unfold from_devaddr
    rw [h]
    rfl
  · intro d L lo up h
    unfold from_devaddr
    rw [h]
    rfl

/-- Claim C6, amended: DevAddr::from_subnet on a duplicate-free list whose total
span is below 2 ^ 32 returns absent exactly for positions at or beyond the
total span.  (With duplicate entries the scan skips the repeated ranges and
positions inside the span can miss.) -/
theorem c6_from_subnet_none_iff (s : Nat) (L : List Nat) (hnd : L.Nodup)
    (hspan : span L < 2 ^ 32) :
    from_subnet s L = none ↔ span L ≤ s := by
  constructor
  · intro h
    by_contra hlt
    exact from_subnet_some_of_lt s L hnd hspan (by omega) h
  · exact from_subnet_none_of_ge s L hspan

/-- Claim C7: sentinel asymmetry.  For every list without the retired NetId and
every DevAddr parsing to the retired NetId, is_local holds while
SubnetAddr::from_devaddr is absent. -/
theorem c7_sentinel_asymmetry (L : List Nat) (hL : RETIRED_NETID ∉ L) (d : Nat)
    (hd : d < 2 ^ 32) (hdn : netid_of d = RETIRED_NETID) :
    is_local d L = true ∧ from_devaddr d L = none := by
  constructor
  · unfold is_local netid_is_local
    rw [hdn, if_pos rfl]
  · unfold from_devaddr
    rw [hdn]
    unfold addr_range
    rw [if_neg hL]
    rfl

/-- Claim C9: constructing a NetId from a 32-bit integer retains only the low 24
bits, never rejecting large values. -/
theorem c9_netid_truncation (v : Nat) (hv : v < 2 ^ 32) :
    netid_from_u32 v = netid_from_u32 (v % 2 ^ 24) := by
  unfold netid_from_u32
  rw [show (0xFFFFFF : Nat) = 2 ^ 24 - 1 from by norm_num,
    Nat.and_pow_two_sub_one_eq_mod, Nat.and_pow_two_sub_one_eq_mod]
  simp [Nat.mod_mod_of_dvd]

/-- Claim C10: whenever SubnetAddr::from_devaddr succeeds on a list whose total
span fits 32 bits, the result lies inside the parsed NetId's half-open range,
within_range affirms it, and DevAddr::from_subnet cannot be absent there. -/
theorem c10_from_devaddr_in_range (d : Nat) (L : List Nat) (hd : d < 2 ^ 32)
    (hspan : span L < 2 ^ 32) (s : Nat) (hs : from_devaddr d L = some s) :
    ∃ lo up, addr_range (netid_of d) L = some (lo, up) ∧ lo ≤ s ∧ s < up ∧
      within_range s (netid_of d) L = true ∧ from_subnet s L ≠ none := by
  have hmem : netid_of d ∈ L := by
    by_contra hmem
    unfold from_devaddr addr_range at hs
    rw [if_neg hmem] at hs
    simp at hs
  have hb32 : sumBefore (netid_of d) L + size (netid_of d) < 2 ^ 32 :=
    lt_of_le_of_lt (sumBefore_add_size_le_span _ L hmem) hspan
  have hrange := addr_range_clean (netid_of d) L hmem hb32
  have hnwk := nwk_addr_lt_size d
  have hs_eq : s = sumBefore (netid_of d) L + nwk_addr d := by
    unfold from_devaddr at hs
    rw [hrange] at hs
    simp only [Option.map_some'] at hs
    rw [Nat.mod_eq_of_lt (by omega)] at hs
    exact (Option.some.inj hs).symm
  have hpn : within_range s (netid_of d) L = true := by
    rw [within_range_clean _ _ L hmem hb32]
    simp only [Bool.and_eq_true, decide_eq_true_eq]
    omega
  refine ⟨_, _, hrange, by omega, by omega, hpn, ?_⟩
  cases hfound : from_subnet_addr s L with
  | none =>
    unfold from_subnet_addr at hfound
    rw [List.find?_eq_none] at hfound
    exact absurd hpn (hfound _ hmem)
  | some m =>
    have hpm : within_range s m L = true := by
      have h := hfound
      unfold from_subnet_addr at h
      exact @List.find?_some _ (fun m => within_range s m L) m L h
    have hmm : m ∈ L := within_range_mem s m L hpm
    unfold from_subnet
    rw [hfound]
    simp only [Option.some_bind]
    unfold addr_range
    rw [if_pos hmm]
    simp

/-- Claim C4, amended: the scanned NetClass of a DevAddr equals the count of
consecutive set bits at the top of its most significant byte whenever that
byte is not 0xFF (patterns 0, 10, ..., 11111110 give classes 0 to 7); the
all-ones byte, whose count is 8, is instead mapped back to class 0; and the
two spec decode vectors evaluate accordingly. -/
theorem c4_net_class_lead_ones :
    (∀ d, d < 2 ^ 32 → (d >>> 24) % 256 ≠ 255 →
      net_class d = lead_ones8 ((d >>> 24) % 256)) ∧
    (∀ d, d < 2 ^ 32 → (d >>> 24) % 256 = 255 → net_class d = 0) ∧
    netid_of 0x5BFFFFFF = 0x00002D ∧ netid_of 0xFD6DB7FF = 0xC05B6D := by
  refine ⟨?_, ?_, by decide, by decide⟩
  · intro d _ hne
    unfold net_class
    have h : ∀ b, b < 256 → b ≠ 255 → netid_shift_pre b 7 = lead_ones8 b := by decide
    exact h _ (Nat.mod_lt _ (by norm_num)) hne
  · intro d _ h255
    unfold net_class
    rw [h255]
    decide

/-- Case lemma for claim C5: a class marker field ored with the class bits whose
shifted image vanishes modulo 2 ^ 32. -/
theorem c5_case (c al r a : Nat) (ha32 : a < 2 ^ 32)
    (hzero : ((2 ^ 21 * c) <<< al) % 2 ^ 32 = 0) :
    ((var_net_class c ||| ((2 ^ 21 * c) ||| r)) <<< al) % 2 ^ 32 ||| a
      = ((var_net_class c ||| r) <<< al ||| a) % 2 ^ 32 := by
  rw [lor_mod_two_pow, Nat.mod_eq_of_lt ha32]
  congr 1
  rw [Nat.or_comm (2 ^ 21 * c) r, ← Nat.or_assoc, shiftLeft_lor_distrib, lor_mod_two_pow,
    hzero, Nat.or_zero]

/-- Claim C5: NetId::to_devaddr equals the spec formula built from the unary class
marker, the NetId's low 21 bits only, and the table widths: the class bits
ored in by the implementation either vanish in the 32-bit truncation of the
shift or are absorbed by the class-7 marker. -/
theorem c5_to_devaddr_formula (n a : Nat) (hn : n < 2 ^ 24)
    (ha : a < 2 ^ addr_len (n >>> 21)) :
    to_devaddr n a
      = (((spec_pat (n >>> 21) <<< id_len (n >>> 21)) ||| n % 2 ^ 21)
          <<< addr_len (n >>> 21) ||| a) % 2 ^ 32 := by
  obtain ⟨c, hceq⟩ : ∃ c, n >>> 21 = c := ⟨_, rfl⟩
  have hc8 : c < 8 := by
    rw [← hceq, Nat.shiftRight_eq_div_pow, Nat.div_lt_iff_lt_mul (Nat.two_pow_pos _)]
    calc n < 2 ^ 24 := hn
      _ = 8 * 2 ^ 21 := by norm_num
  have hcls : netid_class n = c := by
    unfold netid_class
    rw [hceq, Nat.mod_eq_of_lt (by omega)]
  have hr21 : n % 2 ^ 21 < 2 ^ 21 := Nat.mod_lt _ (by norm_num)
  have hn_or : n = (2 ^ 21 * c) ||| n % 2 ^ 21 := by
    rw [two_pow_mul_lor_small _ _ _ hr21, ← hceq, Nat.shiftRight_eq_div_pow]
    exact (Nat.div_add_mod n (2 ^ 21)).symm
  rw [hceq] at ha ⊢
  unfold to_devaddr
  rw [hcls]
  interval_cases c
  · rw [show spec_pat 0 <<< id_len 0 = var_net_class 0 from by decide]
    conv_lhs => rw [hn_or]
    exact c5_case 0 (addr_len 0) (n % 2 ^ 21) a (lt_of_lt_of_le ha (by decide)) (by decide)
  · rw [show spec_pat 1 <<< id_len 1 = var_net_class 1 from by decide]
    conv_lhs => rw [hn_or]
    exact c5_case 1 (addr_len 1) (n % 2 ^ 21) a (lt_of_lt_of_le ha (by decide)) (by decide)
  · rw [show spec_pat 2 <<< id_len 2 = var_net_class 2 from by decide]
    conv_lhs => rw [hn_or]
    exact c5_case 2 (addr_len 2) (n % 2 ^ 21) a (lt_of_lt_of_le ha (by decide)) (by decide)
  · rw [show spec_pat 3 <<< id_len 3 = var_net_class 3 from by decide]
    conv_lhs => rw [hn_or]
    exact c5_case 3 (addr_len 3) (n % 2 ^ 21) a (lt_of_lt_of_le ha (by decide)) (by decide)
  · rw [show spec_pat 4 <<< id_len 4 = var_net_class 4 from by decide]
    conv_lhs => rw [hn_or]
    exact c5_case 4 (addr_len 4) (n % 2 ^ 21) a (lt_of_lt_of_le ha (by decide)) (by decide)
  · rw [show spec_pat 5 <<< id_len 5 = var_net_class 5 from by decide]
    conv_lhs => rw [hn_or]
    exact c5_case 5 (addr_len 5) (n % 2 ^ 21) a (lt_of_lt_of_le ha (by decide)) (by decide)
  · rw [show spec_pat 6 <<< id_len 6 = var_net_class 6 from by decide]
    conv_lhs => rw [hn_or]
    exact c5_case 6 (addr_len 6) (n % 2 ^ 21) a (lt_of_lt_of_le ha (by decide)) (by decide)
  · rw [show spec_pat 7 <<< id_len 7 = var_net_class 7 from by decide]
    conv_lhs => rw [hn_or]
    rw [← Nat.or_assoc, show var_net_class 7 ||| 2 ^ 21 * 7 = var_net_class 7 from by decide,
      lor_mod_two_pow, Nat.mod_eq_of_lt (lt_of_lt_of_le ha (by decide))]

/-- Claim C8, amended: in a duplicate-free list whose total span is below 2 ^ 32,
the ranges of adjacent entries are contiguous, the upper bound at a position
equalling the lower bound at the next, and each lower bound is the exact sum
of the span sizes of the entries before that position. -/
theorem c8_range_contiguity (L : List Nat) (hnd : L.Nodup) (hspan : span L < 2 ^ 32)
    (i : Nat) (h : i + 1 < L.length) :
    ∃ lo1 up1 lo2 up2,
      addr_range (L.get ⟨i, Nat.lt_of_succ_lt h⟩) L = some (lo1, up1) ∧
      addr_range (L.get ⟨i + 1, h⟩) L = some (lo2, up2) ∧
      up1 = lo2 ∧ lo1 = ((L.map size).take i).sum := by
  have hmem1 : L.get ⟨i, Nat.lt_of_succ_lt h⟩ ∈ L := L.get_mem _ _
  have hmem2 : L.get ⟨i + 1, h⟩ ∈ L := L.get_mem _ _
  have hb1 : sumBefore (L.get ⟨i, Nat.lt_of_succ_lt h⟩) L
      + size (L.get ⟨i, Nat.lt_of_succ_lt h⟩) < 2 ^ 32 :=
    lt_of_le_of_lt (sumBefore_add_size_le_span _ L hmem1) hspan
  have hb2 : sumBefore (L.get ⟨i + 1, h⟩) L + size (L.get ⟨i + 1, h⟩) < 2 ^ 32 :=
    lt_of_le_of_lt (sumBefore_add_size_le_span _ L hmem2) hspan
  refine ⟨_, _, _, _, addr_range_clean _ L hmem1 hb1, addr_range_clean _ L hmem2 hb2, ?_, ?_⟩
  · rw [sumBefore_get L hnd i (Nat.lt_of_succ_lt h), sumBefore_get L hnd (i + 1) h,
      sum_take_map_succ L i (Nat.lt_of_succ_lt h)]
  · exact sumBefore_get L hnd i (Nat.lt_of_succ_lt h)

/-!
Witnesses and counterexamples.
-/

/-- Claim C1 counterexample to the unamended claim: on a list of 128 class-0
NetIds the accumulated span reaches 2 ^ 32, the last entry's wrapped upper
bound collapses to 0, and the DevAddr 0xFFFFFFFF whose NetId is the last
entry maps to a SubnetAddr that from_subnet cannot map back. -/
theorem c1_roundtrip_local_cx :
    netid_of 0xFFFFFFFF ∈ List.replicate 127 0 ++ [127] ∧
      from_devaddr 0xFFFFFFFF (List.replicate 127 0 ++ [127]) = some 0xFFFFFFFF ∧
      from_subnet 0xFFFFFFFF (List.replicate 127 0 ++ [127]) = none := by decide

/-- Claim C1 witness: the amended round trip at the spec's own test vector. -/
theorem c1_roundtrip_local_witness :
    ∃ s, from_devaddr 0xFC00D410 [0xE00001, 0xC00035, 0x60002D] = some s ∧
      from_subnet s [0xE00001, 0xC00035, 0x60002D] = some 0xFC00D410 :=
  c1_roundtrip_local 0xFC00D410 [0xE00001, 0xC00035, 0x60002D] (by decide) (by decide)
    (by decide)

/-- Claim C2 counterexample to the unamended claim: with the duplicate list
[0xE00001, 0xE00001] the position 128 is below the total span 256, yet
from_subnet returns absent, so the claimed round trip fails. -/
theorem c2_roundtrip_subnet_cx :
    128 < span [0xE00001, 0xE00001] ∧ from_subnet 128 [0xE00001, 0xE00001] = none := by
  decide

/-- Claim C2 witness: the amended round trip at the spec's own test vector. -/
theorem c2_roundtrip_subnet_witness :
    ∃ d, from_subnet 144 [0xE00001, 0xC00035, 0x60002D] = some d ∧
      from_devaddr d [0xE00001, 0xC00035, 0x60002D] = some 144 :=
  c2_roundtrip_subnet 144 [0xE00001, 0xC00035, 0x60002D] (by decide) (by decide)
    (by decide) (by decide)

/-- Claim C3 witness: the absent branch at the retired-NetId DevAddr. -/
theorem c3_from_devaddr_spec_witness :
    from_devaddr 0x90000000 [0xE00001, 0xC00035, 0x60002D] = none :=
  c3_from_devaddr_spec.1 0x90000000 [0xE00001, 0xC00035, 0x60002D] (by decide)

/-- Claim C4 counterexample to the unamended claim: for the top byte 0xFF the
leading-ones count is 8 while the scanned class is 0, so the class does not
equal the count there. -/
theorem c4_net_class_lead_ones_cx :
    lead_ones8 ((0xFF000000 >>> 24) % 256) = 8 ∧ net_class 0xFF000000 = 0 ∧
      net_class 0xFF000000 ≠ lead_ones8 ((0xFF000000 >>> 24) % 256) := by decide

/-- Claim C4 witness: the amended equality at a class-0 and an all-ones byte. -/
theorem c4_net_class_lead_ones_witness :
    net_class 0x5BFFFFFF = lead_ones8 ((0x5BFFFFFF >>> 24) % 256) ∧
      net_class 0xFFFFFFFF = 0 :=
  ⟨c4_net_class_lead_ones.1 0x5BFFFFFF (by decide) (by decide),
    c4_net_class_lead_ones.2.1 0xFFFFFFFF (by decide) (by decide)⟩

/-- Claim C5 witness: the formula at the spec's class-6 test vector. -/
theorem c5_to_devaddr_formula_witness :
    to_devaddr 0xC00035 16
      = (((spec_pat (0xC00035 >>> 21) <<< id_len (0xC00035 >>> 21)) ||| 0xC00035 % 2 ^ 21)
          <<< addr_len (0xC00035 >>> 21) ||| 16) % 2 ^ 32 :=
  c5_to_devaddr_formula 0xC00035 16 (by decide) (by decide)

/-- Claim C6 counterexample to the unamended claim: with the duplicate list
[0xC00035, 0xC00035] the position 1024 is inside the total span 2048, yet
from_subnet is absent. -/
theorem c6_from_subnet_none_iff_cx :
    1024 < span [0xC00035, 0xC00035] ∧ from_subnet 1024 [0xC00035, 0xC00035] = none := by
  decide

/-- Claim C6 witness: beyond the total span from_subnet is absent. -/
theorem c6_from_subnet_none_iff_witness :
    from_subnet 200000 [0xE00001, 0xC00035, 0x60002D] = none :=
  (c6_from_subnet_none_iff 200000 [0xE00001, 0xC00035, 0x60002D] (by decide)
    (by decide)).mpr (by decide)

/-- Claim C7 witness: the sentinel asymmetry at DevAddr 0x90000000 and the spec's
list. -/
theorem c7_sentinel_asymmetry_witness :
    is_local 0x90000000 [0xE00001, 0xC00035, 0x60002D] = true ∧
      from_devaddr 0x90000000 [0xE00001, 0xC00035, 0x60002D] = none :=
  c7_sentinel_asymmetry [0xE00001, 0xC00035, 0x60002D] (by decide) 0x90000000
    (by decide) (by decide)

/-- Claim C8 counterexample to the unamended claim: on the duplicate list
[0x60002D, 0x60002D] both positions carry the first occurrence's range, so
the upper bound at position 0 (131072) differs from the lower bound at
position 1 (0). -/
theorem c8_range_contiguity_cx :
    addr_range (([0x60002D, 0x60002D] : List Nat).get ⟨0, by decide⟩)
        [0x60002D, 0x60002D] = some (0, 131072) ∧
      addr_range (([0x60002D, 0x60002D] : List Nat).get ⟨1, by decide⟩)
        [0x60002D, 0x60002D] = some (0, 131072) ∧
      (131072 : Nat) ≠ 0 := by decide

/-- Claim C8 witness: contiguity of the first two entries of the spec's list. -/
theorem c8_range_contiguity_witness :
    ∃ lo1 up1 lo2 up2,
      addr_range (([0xE00001, 0xC00035, 0x60002D] : List Nat).get ⟨0, by decide⟩)
        [0xE00001, 0xC00035, 0x60002D] = some (lo1, up1) ∧
      addr_range (([0xE00001, 0xC00035, 0x60002D] : List Nat).get ⟨1, by decide⟩)
        [0xE00001, 0xC00035, 0x60002D] = some (lo2, up2) ∧
      up1 = lo2 ∧
      lo1 = ((([0xE00001, 0xC00035, 0x60002D] : List Nat).map size).take 0).sum :=
  c8_range_contiguity [0xE00001, 0xC00035, 0x60002D] (by decide) (by decide) 0 (by decide)

/-- Claim C9 witness: truncation of a value above 2 ^ 24. -/
theorem c9_netid_truncation_witness :
    netid_from_u32 0xABCDEF12 = netid_from_u32 (0xABCDEF12 % 2 ^ 24) :=
  c9_netid_truncation 0xABCDEF12 (by decide)

/-- Claim C10 witness: the successful from_devaddr at the spec's class-6 vector
lies inside its NetId's range and from_subnet is not absent there. -/
theorem c10_from_devaddr_in_range_witness :
    ∃ lo up, addr_range (netid_of 0xFC00D410) [0xE00001, 0xC00035, 0x60002D]
        = some (lo, up) ∧ lo ≤ 144 ∧ 144 < up ∧
      within_range 144 (netid_of 0xFC00D410) [0xE00001, 0xC00035, 0x60002D] = true ∧
      from_subnet 144 [0xE00001, 0xC00035, 0x60002D] ≠ none :=
  c10_from_devaddr_in_range 0xFC00D410 [0xE00001, 0xC00035, 0x60002D] (by decide)
    (by decide) 144 (by decide)
